import Mathlib

/-!
Verification of the Run Orchestrator of the AI-Agent-Product-Design-Lab
repository against its natural-language specification.

The embedding below follows the repository's source files:
* `docs/implementation/agent-execution.md` — the streaming orchestrator
  (`_execute_graph_streaming`), transcribed in `AgentLab.executeGraphStreaming`.
* `frontend/lib/api.ts` — the SSE client helper `streamRun`, transcribed in
  `AgentLab.streamRunListeners`.
* `frontend/components/chat/ChatInterface.tsx` — the chat event dispatch.
* `docs/implementation/TWO_WAY_COMMUNICATION_FIX.md` — the current
  `gemini_client.py` streaming loop (synthetic chunk on empty completion) and
  the orchestrator iteration loop (`max_iterations = 5`).
* `MULTI_LEVEL_DELEGATION_DESIGN.md` — `DelegationTimeout.delegate_with_timeout`,
  `validate_no_cycles`, `check_depth_limit`.
Parts of the backend that exist only as prose in the repository (the
repository module, the capability router `select_children`, and the recursive
executor's pre-execution checks) are modelled from the specification's words;
their doc comments say so explicitly.
-/

namespace AgentLab

/-! ## C1: streaming event order (`_execute_graph_streaming`) -/

/-- Events produced by the streaming orchestrator, from
`docs/implementation/agent-execution.md` (`_execute_graph_streaming`):
`{"type": "status"|"output_chunk"|"output", "agent_id": ..., ...}`. -/
inductive GEvent where
  | status (agent : String) (st : String)
  | output_chunk (agent : String) (chunk : String)
  | output (agent : String) (text : String)
deriving DecidableEq, Repr

def eventAgent : GEvent → String
  | .status a _ => a
  | .output_chunk a _ => a
  | .output a _ => a

/-- The block of events `_execute_graph_streaming` emits for one agent:
`status running`, one `output_chunk` per provider chunk (accumulating
`full_output += chunk`), then `output` with the accumulated text, then
`status completed`.  `chunksOf` is the oracle for the provider's chunk
stream of each agent. -/
def agentBlock (chunksOf : String → List String) (a : String) : List GEvent :=
  [GEvent.status a "running"]
    ++ (chunksOf a).map (GEvent.output_chunk a)
    ++ [GEvent.output a (String.join (chunksOf a)), GEvent.status a "completed"]

/-- `_execute_graph_streaming`: iterate over the execution order and emit each
agent's block in turn. -/
def executeGraphStreaming (order : List String) (chunksOf : String → List String) :
    List GEvent :=
  order.flatMap (agentBlock chunksOf)

/-- The subsequence of an event stream belonging to one agent. -/
def agentEvents (a : String) (evs : List GEvent) : List GEvent :=
  evs.filter (fun e => eventAgent e == a)

/-- The `output_chunk` texts of an event stream, in emission order. -/
def chunkTexts (evs : List GEvent) : List String :=
  evs.filterMap (fun e => match e with
    | .output_chunk _ t => some t
    | _ => none)

/-- The `output` texts of an event stream, in emission order. -/
def outputTexts (evs : List GEvent) : List String :=
  evs.filterMap (fun e => match e with
    | .output _ t => some t
    | _ => none)

lemma agentEvents_append (a : String) (l1 l2 : List GEvent) :
    agentEvents a (l1 ++ l2) = agentEvents a l1 ++ agentEvents a l2 :=
  List.filter_append _ _

lemma filter_map_chunk_self (a : String) (l : List String) :
    (l.map (GEvent.output_chunk a)).filter (fun e => eventAgent e == a)
      = l.map (GEvent.output_chunk a) := by
  induction l with
  | nil => rfl
  | cons x xs ih => simpa [eventAgent] using ih

lemma filter_map_chunk_ne {a b : String} (h : b ≠ a) (l : List String) :
    (l.map (GEvent.output_chunk b)).filter (fun e => eventAgent e == a) = [] := by
  induction l with
  | nil => rfl
  | cons x xs ih => simpa [eventAgent, h] using ih

lemma agentEvents_agentBlock_self (ch : String → List String) (a : String) :
    agentEvents a (agentBlock ch a) = agentBlock ch a := by
  simp only [agentEvents, agentBlock, List.filter_append]
  rw [filter_map_chunk_self]
  simp [eventAgent]

lemma agentEvents_agentBlock_ne (ch : String → List String) {a b : String}
    (h : b ≠ a) : agentEvents a (agentBlock ch b) = [] := by
  simp only [agentEvents, agentBlock, List.filter_append]
  rw [filter_map_chunk_ne h]
  simp [eventAgent, h]

lemma agentEvents_flatMap_not_mem (ch : String → List String) {a : String}
    {order : List String} (h : a ∉ order) :
    agentEvents a (order.flatMap (agentBlock ch)) = [] := by
  induction order with
  | nil => rfl
  | cons b rest ih =>
    have hba : b ≠ a := fun hb => h (hb ▸ List.mem_cons_self b rest)
    have ha : a ∉ rest := fun hr => h (List.mem_cons_of_mem b hr)
    rw [List.flatMap_cons, agentEvents_append, agentEvents_agentBlock_ne ch hba,
      ih ha, List.append_nil]

lemma agentEvents_executeGraphStreaming (ch : String → List String) {a : String}
    {order : List String} (hnd : order.Nodup) (hmem : a ∈ order) :
    agentEvents a (executeGraphStreaming order ch) = agentBlock ch a := by
  induction order with
  | nil => cases hmem
  | cons b rest ih =>
    rw [executeGraphStreaming, List.flatMap_cons, agentEvents_append]
    rcases List.mem_cons.mp hmem with hba | har
    · have hb : b ∉ rest := (List.nodup_cons.mp hnd).1
      have hbr : agentEvents a (rest.flatMap (agentBlock ch)) = [] := by
        apply agentEvents_flatMap_not_mem
        rw [hba]; exact hb
      rw [hbr, ← hba, agentEvents_agentBlock_self, List.append_nil]
    · have hba : b ≠ a := by
        intro hb; subst hb; exact (List.nodup_cons.mp hnd).1 har
      rw [agentEvents_agentBlock_ne ch hba]
      have := ih (List.nodup_cons.mp hnd).2 har
      rw [executeGraphStreaming] at this
      rw [this, List.nil_append]

lemma chunkTexts_agentBlock (ch : String → List String) (a : String) :
    chunkTexts (agentBlock ch a) = ch a := by
  simp only [chunkTexts, agentBlock, List.filterMap_append]
  have h : ∀ l : List String,
      (l.map (GEvent.output_chunk a)).filterMap (fun e => match e with
        | GEvent.output_chunk _ t => some t
        | _ => none) = l := by
    intro l
    induction l with
    | nil => rfl
    | cons x xs ih => simpa using ih
  rw [h]
  simp

lemma outputTexts_agentBlock (ch : String → List String) (a : String) :
    outputTexts (agentBlock ch a) = [String.join (ch a)] := by
  simp only [outputTexts, agentBlock, List.filterMap_append]
  have h : ∀ l : List String,
      (l.map (GEvent.output_chunk a)).filterMap (fun e => match e with
        | GEvent.output _ t => some t
        | _ => none) = [] := by
    intro l
    induction l with
    | nil => rfl
    | cons x xs ih => simpa using ih
  rw [h]
  simp

/-- Claim C1: within one agent execution of `_execute_graph_streaming`
(`docs/implementation/agent-execution.md`), the agent's events are exactly
`status running`, its `output_chunk`s in provider order, its `output`, and a
final `status completed`; the single `output` text is the concatenation of the
`output_chunk` texts in emission order (hence those chunks form a prefix of it
and all precede the `output`); the terminal status event is the last event for
that agent. -/
theorem streaming_event_order (order : List String) (ch : String → List String)
    (a : String) (hnd : order.Nodup) (hmem : a ∈ order) (hch : ch a ≠ []) :
    agentEvents a (executeGraphStreaming order ch) =
      [GEvent.status a "running"] ++ (ch a).map (GEvent.output_chunk a)
        ++ [GEvent.output a (String.join (ch a)), GEvent.status a "completed"]
    ∧ chunkTexts (agentEvents a (executeGraphStreaming order ch)) = ch a
    ∧ outputTexts (agentEvents a (executeGraphStreaming order ch)) =
        [String.join (chunkTexts (agentEvents a (executeGraphStreaming order ch)))]
    ∧ (agentEvents a (executeGraphStreaming order ch)).getLast? =
        some (GEvent.status a "completed") := by
  have hblock := agentEvents_executeGraphStreaming ch hnd hmem
  refine ⟨by rw [hblock]; rfl, ?_, ?_, ?_⟩
  · rw [hblock]; exact chunkTexts_agentBlock ch a
  · rw [hblock, chunkTexts_agentBlock, outputTexts_agentBlock]
  · rw [hblock]
    have : agentBlock ch a =
        ([GEvent.status a "running"] ++ (ch a).map (GEvent.output_chunk a)
          ++ [GEvent.output a (String.join (ch a))]) ++
            [GEvent.status a "completed"] := by
      simp [agentBlock]
    rw [this]
    exact List.getLast?_concat _

/-- Witness for `streaming_event_order` at a concrete two-agent run. -/
theorem streaming_event_order_witness :
    (["A", "B"] : List String).Nodup ∧ ("A" : String) ∈ (["A", "B"] : List String)
    ∧ (fun x => if x = "A" then ["he", "llo"] else ["x"] : String → List String) "A" ≠ []
    ∧ agentEvents "A" (executeGraphStreaming ["A", "B"]
        (fun x => if x = "A" then ["he", "llo"] else ["x"])) =
      [GEvent.status "A" "running"]
        ++ (["he", "llo"] : List String).map (GEvent.output_chunk "A")
        ++ [GEvent.output "A" (String.join ["he", "llo"]),
            GEvent.status "A" "completed"]
    ∧ (agentEvents "A" (executeGraphStreaming ["A", "B"]
        (fun x => if x = "A" then ["he", "llo"] else ["x"]))).getLast? =
        some (GEvent.status "A" "completed") := by
  have h := streaming_event_order ["A", "B"]
    (fun x => if x = "A" then ["he", "llo"] else ["x"]) "A"
    (by decide) (by decide) (by decide)
  exact ⟨by decide, by decide, by decide, h.1, h.2.2.2⟩

/-! ## C2: session isolation (repository + graph loading) -/

/-- An agent row as persisted: `agent_id`, `session_id`, optional `parent_id`.
Modelled from the spec: the backend repository module is present in the
repository only through its docs (`SESSION_ISOLATION_REPORT.md`,
End-to-End plan §`_load_agent_graph`) which state that every query filters by
`session_id`. -/
structure AgentRow where
  id : String
  session_id : String
  parent_id : Option String
deriving DecidableEq, Repr

inductive RepoError where
  | NotFound
  | CrossSessionViolation
  | WouldCreateCycle
deriving DecidableEq, Repr

/-- `_load_agent_graph` (backend/core/orchestrator.py per the repository docs):
agents of the run's session only. Modelled from the spec: rows of other
sessions are invisible. -/
def load_agent_graph (db : List AgentRow) (sid : String) : List AgentRow :=
  db.filter (fun r => r.session_id == sid)

/-- `get_agent` of the session-scoped repository. Modelled from the spec:
"rows not belonging to `session_id` are reported as not found". -/
def get_agent (db : List AgentRow) (sid aid : String) : Option AgentRow :=
  db.find? (fun r => r.id == aid && r.session_id == sid)

/-- `get_children` of the session-scoped repository. Modelled from the spec. -/
def get_children (db : List AgentRow) (sid pid : String) : List AgentRow :=
  db.filter (fun r => r.session_id == sid && r.parent_id == some pid)

/-- Re-parenting. Modelled from the spec: "cross-session parent assignments
fail with `CrossSessionViolation`". -/
def set_parent (db : List AgentRow) (sid child parent : String) :
    Except RepoError (List AgentRow) :=
  match get_agent db sid child with
  | none => Except.error RepoError.NotFound
  | some _ =>
    match db.find? (fun r => r.id == parent) with
    | none => Except.error RepoError.NotFound
    | some p =>
      if p.session_id ≠ sid then Except.error RepoError.CrossSessionViolation
      else Except.ok (db.map (fun r =>
        if r.id == child then ⟨r.id, r.session_id, some parent⟩ else r))

/-- Claim C2: every repository read is session-scoped — the loaded graph and
`get_agent` only ever return rows of the caller's session, rows of other
sessions are reported as not found, cross-session parent assignment fails with
`CrossSessionViolation` — and every event of a run over the loaded graph
references an agent of the run's session. -/
theorem session_isolation (db : List AgentRow) (sid : String) :
    (∀ r ∈ load_agent_graph db sid, r.session_id = sid)
    ∧ (∀ aid r, get_agent db sid aid = some r → r.session_id = sid)
    ∧ ((db.map AgentRow.id).Nodup →
        ∀ r ∈ db, r.session_id ≠ sid → get_agent db sid r.id = none)
    ∧ (∀ child parent p, get_agent db sid child ≠ none →
        db.find? (fun r => r.id == parent) = some p → p.session_id ≠ sid →
        set_parent db sid child parent = Except.error RepoError.CrossSessionViolation)
    ∧ (∀ ch e, e ∈ executeGraphStreaming ((load_agent_graph db sid).map AgentRow.id) ch →
        ∃ r ∈ db, r.id = eventAgent e ∧ r.session_id = sid) := by
  refine ⟨?_, ?_, ?_, ?_, ?_⟩
  · intro r hr
    have := (List.mem_filter.mp hr).2
    exact by simpa using this
  · intro aid r hr
    have := List.find?_some hr
    simp only [Bool.and_eq_true, beq_iff_eq] at this
    exact this.2
  · intro hnd r hr hs
    cases h : get_agent db sid r.id with
    | none => rfl
    | some r2 =>
      exfalso
      have hp := List.find?_some h
      simp only [Bool.and_eq_true, beq_iff_eq] at hp
      have hm2 : r2 ∈ db := List.mem_of_find?_eq_some h
      have : r = r2 := by
        have hinj := List.inj_on_of_nodup_map hnd
        exact hinj hr hm2 hp.1.symm
      exact hs (this ▸ hp.2)
  · intro child parent p hchild hfind hne
    rw [set_parent]
    cases hc : get_agent db sid child with
    | none => exact absurd hc hchild
    | some c0 => rw [hfind]; simp [hne]
  · intro ch e he
    rw [executeGraphStreaming] at he
    rcases List.mem_flatMap.mp he with ⟨aid, haid, hblock⟩
    rcases List.mem_map.mp haid with ⟨r, hr, hid⟩
    have hsess : r.session_id = sid := by
      have := (List.mem_filter.mp hr).2
      exact by simpa using this
    have hmem : r ∈ db := (List.mem_filter.mp hr).1
    refine ⟨r, hmem, ?_, hsess⟩
    have : eventAgent e = aid := by
      rcases List.mem_append.mp hblock with h1 | h2
      · rcases List.mem_append.mp h1 with h3 | h4
        · simp only [List.mem_singleton] at h3
          rw [h3]; rfl
        · rcases List.mem_map.mp h4 with ⟨t, _, ht⟩
          rw [← ht]; rfl
      · rcases List.mem_cons.mp h2 with h3 | h4
        · rw [h3]; rfl
        · simp only [List.mem_singleton] at h4
          rw [h4]; rfl
    rw [this, hid]

/-- Witness for `session_isolation` at a concrete two-session database. -/
theorem session_isolation_witness :
    get_agent [(⟨"a1", "s1", none⟩ : AgentRow), ⟨"a2", "s2", none⟩] "s2" "a1" = none
    ∧ set_parent [(⟨"a1", "s1", none⟩ : AgentRow), ⟨"a2", "s2", none⟩] "s2" "a2" "a1"
        = Except.error RepoError.CrossSessionViolation := by
  have h := session_isolation [(⟨"a1", "s1", none⟩ : AgentRow), ⟨"a2", "s2", none⟩] "s2"
  refine ⟨?_, ?_⟩
  · exact h.2.2.1 (by decide) ⟨"a1", "s1", none⟩ (by decide) (by decide)
  · exact h.2.2.2.1 "a2" "a1" ⟨"a1", "s1", none⟩ (by decide) (by decide) (by decide)

/-! ## C3 and C4: recursive executor pre-checks (cycle and depth refusal) -/

inductive RefuseKind where
  | cycle
  | depth
deriving DecidableEq, Repr

/-- Events of the recursive executor that matter for the delegation-safety
claims. `llm_call` marks the point where the agent's LLM stream is opened. -/
inductive XEvent where
  | delegation_refused (agent : String) (kind : RefuseKind)
  | llm_call (agent : String)
  | output (agent : String)
  | delegation (src : String) (dst : String)
deriving DecidableEq, Repr

/-- Result of one executor invocation: the emitted events, and the visited-path
of every node whose LLM was actually invoked (the delegation chain from the
root to that node). -/
structure ExecResult where
  events : List XEvent
  paths : List (List String)
deriving DecidableEq, Repr

/-- Default `max_depth`. Spec §4.5 / §6: `MAX_DEPTH` (default 10);
`MULTI_LEVEL_DELEGATION_DESIGN.md`: "Max hop limit (default: 10)". -/
def MAX_DEPTH : Nat := 10

/-- The recursive executor's control skeleton. Modelled from the spec (§4.5
pre-execution checks, in order: cycle, then depth) and consistent with
`validate_no_cycles` / `check_depth_limit` in
`MULTI_LEVEL_DELEGATION_DESIGN.md`: a repeated agent id on the current branch
is refused with `delegation_refused(cycle)` before the LLM is invoked, a call
at `depth ≥ max_depth` is refused with `delegation_refused(depth)`.
`children` is the router's selection oracle; `fuel` is the structural
recursion bound and never influences the checks. -/
def execute (children : String → List String) (maxDepth : Nat) :
    Nat → String → Nat → List String → ExecResult
  | fuel, a, depth, path =>
    if a ∈ path then ⟨[XEvent.delegation_refused a RefuseKind.cycle], []⟩
    else if maxDepth ≤ depth then ⟨[XEvent.delegation_refused a RefuseKind.depth], []⟩
    else
      match fuel with
      | 0 => ⟨[], []⟩
      | fuel + 1 =>
        let p2 := path ++ [a]
        let results := (children a).map
          (fun c => (c, execute children maxDepth fuel c (depth + 1) p2))
        ⟨[XEvent.llm_call a, XEvent.output a]
            ++ results.flatMap (fun cr => XEvent.delegation a cr.1 :: cr.2.events),
          p2 :: results.flatMap (fun cr => cr.2.paths)⟩

/-- Top-level run: root at depth 0 with an empty visited path. -/
def runExecutor (children : String → List String) (root : String) : ExecResult :=
  execute children MAX_DEPTH (MAX_DEPTH + 1) root 0 []

lemma execute_paths_nodup (children : String → List String) (maxDepth : Nat) :
    ∀ fuel a depth path, path.Nodup →
      ∀ p ∈ (execute children maxDepth fuel a depth path).paths, p.Nodup := by
  intro fuel
  induction fuel with
  | zero =>
    intro a depth path hnd p hp
    rw [execute] at hp
    by_cases h1 : a ∈ path
    · simp [h1] at hp
    · by_cases h2 : maxDepth ≤ depth
      · simp [h1, h2] at hp
      · simp [h1, h2] at hp
  | succ fuel ih =>
    intro a depth path hnd p hp
    rw [execute] at hp
    by_cases h1 : a ∈ path
    · simp [h1] at hp
    · by_cases h2 : maxDepth ≤ depth
      · simp [h1, h2] at hp
      · simp only [if_neg h1, if_neg h2] at hp
        have hnd2 : (path ++ [a]).Nodup := by
          simp [List.nodup_append, hnd, h1]
        rcases List.mem_cons.mp hp with hph | hpm
        · rw [hph]; exact hnd2
        · rcases List.mem_flatMap.mp hpm with ⟨cr, hcr, hpcr⟩
          rcases List.mem_map.mp hcr with ⟨c, _, hc⟩
          rw [← hc] at hpcr
          exact ih c (depth + 1) (path ++ [a]) hnd2 p hpcr

lemma execute_paths_length (children : String → List String) (maxDepth : Nat) :
    ∀ fuel a depth path, path.length = depth →
      ∀ p ∈ (execute children maxDepth fuel a depth path).paths,
        p.length ≤ maxDepth := by
  intro fuel
  induction fuel with
  | zero =>
    intro a depth path hlen p hp
    rw [execute] at hp
    by_cases h1 : a ∈ path
    · simp [h1] at hp
    · by_cases h2 : maxDepth ≤ depth
      · simp [h1, h2] at hp
      · simp [h1, h2] at hp
  | succ fuel ih =>
    intro a depth path hlen p hp
    rw [execute] at hp
    by_cases h1 : a ∈ path
    · simp [h1] at hp
    · by_cases h2 : maxDepth ≤ depth
      · simp [h1, h2] at hp
      · simp only [if_neg h1, if_neg h2] at hp
        have hlen2 : (path ++ [a]).length = depth + 1 := by
          simp [hlen]
        rcases List.mem_cons.mp hp with hph | hpm
        · rw [hph, hlen2]
          omega
        · rcases List.mem_flatMap.mp hpm with ⟨cr, hcr, hpcr⟩
          rcases List.mem_map.mp hcr with ⟨c, _, hc⟩
          rw [← hc] at hpcr
          exact ih c (depth + 1) (path ++ [a]) hlen2 p hpcr

/-- Claim C3: an executor invocation on an agent already on the visited path
emits only `delegation_refused(cycle)` and invokes no LLM (empty `paths`), and
consequently — starting from a duplicate-free path, in particular from the
root's empty path — every delegation chain recorded during the run is free of
repeated agent ids. -/
theorem executor_refuses_cycles (children : String → List String)
    (maxDepth fuel : Nat) (a : String) (depth : Nat) (path : List String)
    (hnd : path.Nodup) :
    (a ∈ path → execute children maxDepth fuel a depth path =
      ⟨[XEvent.delegation_refused a RefuseKind.cycle], []⟩)
    ∧ (∀ p ∈ (execute children maxDepth fuel a depth path).paths, p.Nodup)
    ∧ (∀ p ∈ (runExecutor children a).paths, p.Nodup) := by
  refine ⟨?_, ?_, ?_⟩
  · intro hmem
    cases fuel with
    | zero => rw [execute]; simp [hmem]
    | succ n => rw [execute]; simp [hmem]
  · exact execute_paths_nodup children maxDepth fuel a depth path hnd
  · exact execute_paths_nodup children MAX_DEPTH (MAX_DEPTH + 1) a 0 [] (by simp)

/-- Witness for `executor_refuses_cycles`: a root that delegates to itself is
refused and no path is recorded. -/
theorem executor_refuses_cycles_witness :
    execute (fun _ => ["A"]) 10 3 "A" 1 ["A"] =
      ⟨[XEvent.delegation_refused "A" RefuseKind.cycle], []⟩
    ∧ ∀ p ∈ (runExecutor (fun _ => ["A"]) "A").paths, p.Nodup := by
  have h := executor_refuses_cycles (fun _ => ["A"]) 10 3 "A" 1 ["A"] (by decide)
  exact ⟨h.1 (by decide), h.2.2⟩

/-- Claim C4: an executor invocation at `depth ≥ max_depth` (default
`MAX_DEPTH = 10`) emits only `delegation_refused(depth)` and does not execute
the agent, and consequently — whenever the visited path matches the depth
counter, in particular at the root — every delegation chain recorded during
the run has length at most `max_depth`; the fuel-indexed recursion is
well-founded by construction. -/
theorem executor_depth_bound (children : String → List String)
    (maxDepth fuel : Nat) (a : String) (depth : Nat) (path : List String)
    (hlen : path.length = depth) :
    (a ∉ path → maxDepth ≤ depth → execute children maxDepth fuel a depth path =
      ⟨[XEvent.delegation_refused a RefuseKind.depth], []⟩)
    ∧ (∀ p ∈ (execute children maxDepth fuel a depth path).paths,
        p.length ≤ maxDepth)
    ∧ (∀ p ∈ (runExecutor children a).paths, p.length ≤ MAX_DEPTH) := by
  refine ⟨?_, ?_, ?_⟩
  · intro hmem hdep
    cases fuel with
    | zero => rw [execute]; simp [hmem, hdep]
    | succ n => rw [execute]; simp [hmem, hdep]
  · exact execute_paths_length children maxDepth fuel a depth path hlen
  · exact execute_paths_length children MAX_DEPTH (MAX_DEPTH + 1) a 0 [] (by simp)

/-- Witness for `executor_depth_bound`: a call at the depth limit is refused,
and a deep chain (every agent delegates to a fresh child) never records a path
longer than `MAX_DEPTH`. -/
theorem executor_depth_bound_witness :
    execute (fun _ => ["B"]) 1 3 "A" 1 ["R"] =
      ⟨[XEvent.delegation_refused "A" RefuseKind.depth], []⟩
    ∧ ∀ p ∈ (runExecutor (fun _ => ["B"]) "A").paths, p.length ≤ MAX_DEPTH := by
  have h := executor_depth_bound (fun _ => ["B"]) 1 3 "A" 1 ["R"] (by decide)
  exact ⟨h.1 (by decide) (by decide), h.2.2⟩

/-! ## C5: iteration loop of `execute_run` (multi-round re-engagement) -/

/-- `max_iterations` of `backend/core/orchestrator.py`, per
`docs/implementation/TWO_WAY_COMMUNICATION_FIX.md`: "AFTER: max_iterations = 5
(Allow more back-and-forth)". -/
def max_iterations : Nat := 5

/-- The iteration loop of `execute_run` (`DEBUG_CHAT_FLOW.md`: "Start iteration
loop (max 5) … Collect child messages … Re-execute if new messages";
`TWO_WAY_COMMUNICATION_FIX.md`: `executed_agents = set()` is cleared each
iteration so agents re-execute). `newMessages i` tells whether iteration `i`
collected new child messages; the function counts the rounds actually run,
which is the number of times each engaged agent is executed. -/
def iterLoop : Nat → Nat → (Nat → Bool) → Nat
  | 0, _, _ => 0
  | budget + 1, i, newMessages =>
    1 + (if newMessages i then iterLoop budget (i + 1) newMessages else 0)

/-- Number of executions an engaged agent receives in one run: one per loop
round, the loop stopping when an iteration collects no new child messages or
`max_iterations` rounds have run. -/
def executionsPerAgent (newMessages : Nat → Bool) : Nat :=
  iterLoop max_iterations 1 newMessages

/-- Counterexample to claim C5 as stated: when iteration 1 collects new child
messages the orchestrator runs a second round and re-executes the already
executed agents, so an agent is executed twice in one run — the layer is not
single-pass. -/
theorem single_pass_counterexample :
    executionsPerAgent (fun i => decide (i = 1)) = 2 := by decide

/-- Claim C5, amended: the orchestrator does re-engage already-executed agents
in later rounds of the same run (it re-executes them whenever an iteration
collects new child messages), but the re-engagement is bounded: the loop runs
at most `max_iterations = 5` rounds, so each agent is executed at most 5 times
per run, and if an iteration collects no new messages the loop stops there. -/
theorem bounded_reengagement :
    (∀ newMessages, executionsPerAgent newMessages ≤ max_iterations)
    ∧ (∀ newMessages, newMessages 1 = false → executionsPerAgent newMessages = 1) := by
  constructor
  · intro f
    have h : ∀ budget i f, iterLoop budget i f ≤ budget := by
      intro budget
      induction budget with
      | zero => intro i f; simp [iterLoop]
      | succ n ih =>
        intro i f
        rw [iterLoop]
        by_cases hf : f i
        · rw [if_pos hf]
          have := ih (i + 1) f
          omega
        · rw [if_neg hf]
          omega
    exact h max_iterations 1 f
  · intro f hf
    rw [executionsPerAgent, max_iterations, iterLoop, hf]
    rfl

/-- Witness for `bounded_reengagement`: a run whose first iteration collects
no child messages executes exactly one round, and never more than five. -/
theorem bounded_reengagement_witness :
    executionsPerAgent (fun _ => false) ≤ max_iterations
    ∧ executionsPerAgent (fun _ => false) = 1 :=
  ⟨bounded_reengagement.1 (fun _ => false),
   bounded_reengagement.2 (fun _ => false) rfl⟩

/-! ## C6: per-agent timeout handling (`DelegationTimeout.delegate_with_timeout`) -/

inductive DStatus where
  | fulfilled
  | unable
deriving DecidableEq, Repr

/-- `DelegationResponse` of `MULTI_LEVEL_DELEGATION_DESIGN.md` (the fields the
timeout path touches). -/
structure DelegationResponse where
  status : DStatus
  result : String
  confidence : ℚ
deriving Repr

/-- `DelegationTimeout.delegate_with_timeout`
(`MULTI_LEVEL_DELEGATION_DESIGN.md`, lines 237-256): run the inner delegation
under `asyncio.wait_for`; on `TimeoutError` return
`DelegationResponse(status="unable", result=f"Timeout after {timeout}s",
confidence=0.0)`. `timedOut` abstracts whether the wall-clock deadline
(default `timeout = 30.0`) expired before `inner` finished; `timeoutSecs` is
the rendered timeout value interpolated into the message. -/
def delegate_with_timeout (timedOut : Bool) (inner : DelegationResponse)
    (timeoutSecs : String) : DelegationResponse :=
  if timedOut then
    ⟨DStatus.unable, "Timeout after " ++ timeoutSecs ++ "s", 0⟩
  else inner

/-- The rendered default timeout (`timeout: float = 30.0`). -/
def default_timeout_secs : String := "30.0"

/-- Counterexample to claim C6 as stated: on expiry the executor does not
return the text accumulated so far — the inner response carrying the partial
text "partial text so far" is discarded and the fixed message
"Timeout after 30.0s" is returned with status `unable`; no `timeout(agent_id)`
event is emitted by this code path. -/
theorem timeout_drops_accumulated_text :
    delegate_with_timeout true
        ⟨DStatus.fulfilled, "partial text so far", 1⟩ default_timeout_secs
      = ⟨DStatus.unable, "Timeout after 30.0s", 0⟩
    ∧ (delegate_with_timeout true
        ⟨DStatus.fulfilled, "partial text so far", 1⟩ default_timeout_secs).result
        ≠ "partial text so far" := ⟨rfl, by decide⟩

/-- Claim C6, amended: each delegation carries a deadline (default 30.0
seconds wall-clock including children, the `asyncio.wait_for` wraps the whole
recursive call); on expiry the executor cancels the inner delegation and
returns a `DelegationResponse` with status `unable`, the fixed message
`Timeout after {timeout}s` and confidence 0 — discarding any accumulated text
— and the caller continues the run with that response; when the deadline does
not expire the inner response is returned unchanged. -/
theorem timeout_response_spec :
    (∀ inner t, delegate_with_timeout true inner t =
      ⟨DStatus.unable, "Timeout after " ++ t ++ "s", 0⟩)
    ∧ (∀ inner t, delegate_with_timeout false inner t = inner)
    ∧ (∀ inner, (delegate_with_timeout true inner default_timeout_secs).result =
        "Timeout after 30.0s") := by
  refine ⟨fun inner t => rfl, fun inner t => rfl, fun inner => rfl⟩

/-! ## C7: synthetic chunk on empty completion (`gemini_client.py`) -/

/-- One streamed provider chunk as seen by `generate_streaming` in
`backend/core/gemini_client.py` (code shown in
`docs/implementation/TWO_WAY_COMMUNICATION_FIX.md`): an optional `text`
accessor and a list of `parts` texts. -/
structure GChunk where
  text : Option String
  parts : List String
deriving DecidableEq, Repr

/-- The texts one chunk contributes: `if hasattr(chunk, 'text') and
chunk.text: yield chunk.text; elif hasattr(chunk, 'parts') and chunk.parts:
for part in chunk.parts: if part.text: yield part.text`. -/
def chunkYield (c : GChunk) : List String :=
  match c.text with
  | some t => if t ≠ "" then [t] else c.parts.filter (fun p => p ≠ "")
  | none => c.parts.filter (fun p => p ≠ "")

/-- The synthetic operator-visible note
(`TWO_WAY_COMMUNICATION_FIX.md`, `gemini_client.py` AFTER). -/
def synthetic_notice : String :=
  "[System: The AI model did not generate a response. This may be due to content filtering or the prompt being too complex. Please try rephrasing or simplifying your request.]"

/-- `generate_streaming` of `gemini_client.py`: stream every non-empty text of
every chunk; if no content was generated at all (`has_content` stayed false —
the `EmptyCompletion` / `BlockedByPolicy` case), yield the single synthetic
notice instead of ending with zero chunks. -/
def generate_streaming (chunks : List GChunk) : List String :=
  let ys := chunks.flatMap chunkYield
  if ys = [] then [synthetic_notice] else ys

/-- Claim C7: the streaming client never yields zero chunks; when the provider
stream carries no text at all (empty completion or policy block), it yields
exactly one synthetic non-empty chunk, so the agent's accumulated output text
equals the synthetic notice. -/
theorem synthetic_chunk_on_empty (chunks : List GChunk) :
    generate_streaming chunks ≠ []
    ∧ ((∀ c ∈ chunks, chunkYield c = []) →
        generate_streaming chunks = [synthetic_notice]
        ∧ (generate_streaming chunks).length = 1
        ∧ synthetic_notice ≠ ""
        ∧ String.join (generate_streaming chunks) = synthetic_notice) := by
  constructor
  · rw [generate_streaming]
    by_cases h : chunks.flatMap chunkYield = []
    · simp [h, synthetic_notice]
    · simp [h]
  · intro hall
    have hnil : chunks.flatMap chunkYield = [] := by
      rw [List.flatMap_eq_nil_iff]
      exact hall
    rw [generate_streaming]
    simp only [hnil, if_pos rfl]
    refine ⟨rfl, rfl, by decide, ?_⟩
    simp [String.join]

/-- Witness for `synthetic_chunk_on_empty`: a stream whose only chunk has an
empty `text` accessor and no parts (the `finish_reason=1`, no-valid-`Part`
case) produces exactly the synthetic notice. -/
theorem synthetic_chunk_on_empty_witness :
    generate_streaming [⟨some "", []⟩] ≠ []
    ∧ generate_streaming [(⟨some "", []⟩ : GChunk)] = [synthetic_notice]
    ∧ String.join (generate_streaming [(⟨some "", []⟩ : GChunk)]) = synthetic_notice := by
  have h := synthetic_chunk_on_empty [(⟨some "", []⟩ : GChunk)]
  have h2 := h.2 (by decide)
  exact ⟨h.1, h2.1, h2.2.2.2⟩

/-! ## C10: SSE client listeners (`frontend/lib/api.ts` `streamRun`) -/

/-- The event names `streamRun` registers listeners for, in source order
(`frontend/lib/api.ts`, `eventSource.addEventListener(...)` calls). Each
registered listener parses the frame and invokes the `onEvent` callback. -/
def streamRunListeners : List String :=
  ["connected", "log", "output", "output_chunk", "status", "error", "completed"]

/-- Whether an incoming SSE frame with the given event name reaches the
`onEvent` callback: `EventSource` only dispatches named events to registered
listeners. -/
def streamRunDelivers (ev : String) : Bool := streamRunListeners.contains ev

/-- The `event.type` branches of the chat interface's `onEvent` handler
(`frontend/components/chat/ChatInterface.tsx`, `handleSend`), in source
order. -/
def chatInterfaceBranches : List String :=
  ["output_chunk", "output", "status", "delegation", "error"]

/-- Claim C10: `streamRun` registers listeners for exactly the seven event
types `connected`, `log`, `output`, `output_chunk`, `status`, `error`,
`completed`; `delegation` is not among them, so a `delegation` SSE frame never
reaches the `onEvent` callback — even though the chat interface contains a
dedicated `delegation` handler branch, which is therefore dead code. -/
theorem stream_run_listeners_spec :
    streamRunListeners.length = 7
    ∧ streamRunListeners.Nodup
    ∧ streamRunDelivers "connected" = true
    ∧ streamRunDelivers "log" = true
    ∧ streamRunDelivers "output" = true
    ∧ streamRunDelivers "output_chunk" = true
    ∧ streamRunDelivers "status" = true
    ∧ streamRunDelivers "error" = true
    ∧ streamRunDelivers "completed" = true
    ∧ streamRunDelivers "delegation" = false
    ∧ "delegation" ∈ chatInterfaceBranches := by decide

/-! ## C8 and C9: capability router (`select_children`) -/

/-- ASCII case folding of one character. -/
def caseFoldChar (c : Char) : Char :=
  if c.isUpper then Char.ofNat (c.toNat + 32) else c

/-- Case folding of a string. -/
def caseFold (s : String) : String := ⟨s.data.map caseFoldChar⟩

/-- Split a character list on spaces (whitespace tokenization). -/
def splitWS (cs : List Char) : List (List Char) :=
  cs.foldr (fun c acc =>
    if c = ' ' then [] :: acc
    else match acc with
      | [] => [[c]]
      | w :: ws => (c :: w) :: ws) [[]]

/-- The case-folded token set of a task string. -/
def taskTokens (s : String) : List String :=
  (((splitWS (s.data.map caseFoldChar)).filter (fun w => w ≠ [])).map
    (fun w => (⟨w⟩ : String))).dedup

/-- A capability node for one immediate child, as the router sees it.
Modelled from the spec: `Capability = {keywords, child_capabilities, depth,
confidence}` plus the child's agent id the router returns. -/
structure ChildCap where
  id : String
  keywords : List String
  depth : Nat
deriving DecidableEq, Repr

/-- `keyword_match`: normalized overlap of case-folded token sets. Modelled
from the spec (§4.4); the router module itself (`delegation.py`
`DelegationRouter`) is present in the repository only through its design doc
(`route_request` in `MULTI_LEVEL_DELEGATION_DESIGN.md`, which leaves
`calculate_match` unspecified). -/
def keyword_match (task : String) (kws : List String) : ℚ :=
  let t := taskTokens task
  let k := (kws.map caseFold).dedup
  if k = [] then 0 else ((k.filter (fun w => w ∈ t)).length : ℚ) / (k.length : ℚ)

/-- `depth_penalty = 0.1 × depth` (spec §4.4; `route_request`:
`depth_penalty = depth * 0.1  # Prefer closer agents`). -/
def depth_penalty (d : Nat) : ℚ := (1 / 10 : ℚ) * d

/-- `score = keyword_match(task, child.keywords) − depth_penalty(child.depth)`. -/
def score (task : String) (c : ChildCap) : ℚ :=
  keyword_match task c.keywords - depth_penalty c.depth

/-- The router's candidate order: higher score first, ties broken by
lexicographic `child_id` (spec §4.4 determinism rule). -/
def childLE (task : String) (a b : ChildCap) : Prop :=
  score task b < score task a ∨ (score task a = score task b ∧ a.id ≤ b.id)

instance childLE_decidable (task : String) : DecidableRel (childLE task) :=
  fun a b => inferInstanceAs (Decidable (_ ∨ _))

instance childLE_total (task : String) : IsTotal ChildCap (childLE task) := by
  constructor
  intro a b
  rcases lt_trichotomy (score task a) (score task b) with h | h | h
  · exact Or.inr (Or.inl h)
  · rcases le_total a.id b.id with hid | hid
    · exact Or.inl (Or.inr ⟨h, hid⟩)
    · exact Or.inr (Or.inr ⟨h.symm, hid⟩)
  · exact Or.inl (Or.inl h)

instance childLE_trans (task : String) : IsTrans ChildCap (childLE task) := by
  constructor
  intro a b c hab hbc
  rcases hab with hab | ⟨hab, hidab⟩
  · rcases hbc with hbc | ⟨hbc, _⟩
    · exact Or.inl (lt_trans hbc hab)
    · exact Or.inl (hbc ▸ hab)
  · rcases hbc with hbc | ⟨hbc, hidbc⟩
    · exact Or.inl (lt_of_lt_of_eq hbc hab.symm)
    · exact Or.inr ⟨hab.trans hbc, le_trans hidab hidbc⟩

/-- Candidates sorted by descending score, ties by lexicographic id. -/
def sortChildren (task : String) (children : List ChildCap) : List ChildCap :=
  List.insertionSort (childLE task) children

/-- Whether the task contains at least one of the child's (case-folded)
keywords. -/
def containsKeyword (task : String) (c : ChildCap) : Bool :=
  (c.keywords.map caseFold).any (fun kw => (taskTokens task).contains kw)

/-- The default `selection_threshold` (spec §4.4: default 0.0). -/
def selection_threshold : ℚ := 0

/-- `select_children(task, agent_capability)`. Modelled from the spec (§4.4):
all children scoring strictly above the threshold, in deterministic order; if
none qualify, the single highest-scoring child but only when the task
contains one of its keywords; otherwise none. -/
def select_children (task : String) (children : List ChildCap) (threshold : ℚ) :
    List String :=
  if (sortChildren task children).filter (fun c => threshold < score task c) = [] then
    match sortChildren task children with
    | [] => []
    | best :: _ => if containsKeyword task best then [best.id] else []
  else ((sortChildren task children).filter
    (fun c => threshold < score task c)).map ChildCap.id

lemma sortChildren_perm (task : String) (children : List ChildCap) :
    (sortChildren task children).Perm children :=
  List.perm_insertionSort _ children

lemma mem_sortChildren (task : String) {children : List ChildCap} {c : ChildCap} :
    c ∈ sortChildren task children ↔ c ∈ children :=
  (sortChildren_perm task children).mem_iff

lemma sortChildren_sorted (task : String) (children : List ChildCap) :
    (sortChildren task children).Pairwise (childLE task) :=
  List.sorted_insertionSort (childLE task) children

lemma childLE_score_le {task : String} {a b : ChildCap} (h : childLE task a b) :
    score task b ≤ score task a := by
  rcases h with h | ⟨h, _⟩
  · exact le_of_lt h
  · exact le_of_eq h.symm

/-- Claim C8: `select_children` computes `score = keyword_match − 0.1·depth`
per child and (a) every child scoring strictly above the threshold is
selected; (b) a selected child either scores above the threshold or — when no
child does — is a highest-scoring child one of whose keywords occurs in the
task; (c) when no child qualifies at most one child is returned; (d) when no
child qualifies and no child has a keyword contained in the task, nothing is
returned. -/
theorem select_children_spec (task : String) (children : List ChildCap) (t : ℚ) :
    (∀ c ∈ children, t < score task c → c.id ∈ select_children task children t)
    ∧ ((children.map ChildCap.id).Nodup →
        ∀ c ∈ children, c.id ∈ select_children task children t →
          t < score task c
          ∨ ((∀ c2 ∈ children, score task c2 ≤ t)
              ∧ containsKeyword task c = true
              ∧ (∀ c2 ∈ children, score task c2 ≤ score task c)))
    ∧ ((∀ c ∈ children, score task c ≤ t) →
        (select_children task children t).length ≤ 1)
    ∧ ((∀ c ∈ children, score task c ≤ t) →
        (∀ c ∈ children, containsKeyword task c = false) →
        select_children task children t = []) := by
  refine ⟨?_, ?_, ?_, ?_⟩
  · intro c hc hsc
    have hcs : c ∈ sortChildren task children := (mem_sortChildren task).mpr hc
    have hcq : c ∈ (sortChildren task children).filter
        (fun c2 => t < score task c2) :=
      List.mem_filter.mpr ⟨hcs, by simpa using hsc⟩
    have hqne : (sortChildren task children).filter
        (fun c2 => t < score task c2) ≠ [] :=
      List.ne_nil_of_mem hcq
    rw [select_children, if_neg hqne]
    exact List.mem_map_of_mem ChildCap.id hcq
  · intro hnd c hc hsel
    by_cases hq : (sortChildren task children).filter
        (fun c2 => t < score task c2) = []
    · right
      have hall : ∀ c2 ∈ children, score task c2 ≤ t := by
        intro c2 hc2
        have := List.filter_eq_nil_iff.mp hq c2 ((mem_sortChildren task).mpr hc2)
        simpa using this
      rw [select_children, if_pos hq] at hsel
      cases hs : sortChildren task children with
      | nil =>
        exfalso
        have : children = [] := by
          have := sortChildren_perm task children
          rw [hs] at this
          exact (List.perm_nil.mp this.symm).symm ▸ rfl
        rw [this] at hc
        cases hc
      | cons best rest =>
        rw [hs] at hsel
        have hsel2 : c.id ∈ (if containsKeyword task best then [best.id] else []) :=
          hsel
        by_cases hck : containsKeyword task best
        · rw [if_pos hck] at hsel2
          have hid : c.id = best.id := by simpa using hsel2
          have hbestmem : best ∈ children := by
            have : best ∈ sortChildren task children := by
              rw [hs]; exact List.mem_cons_self best rest
            exact (mem_sortChildren task).mp this
          have hceq : c = best := List.inj_on_of_nodup_map hnd hc hbestmem hid
          subst hceq
          refine ⟨hall, hck, ?_⟩
          intro c2 hc2
          have hc2s : c2 ∈ sortChildren task children :=
            (mem_sortChildren task).mpr hc2
          rw [hs] at hc2s
          rcases List.mem_cons.mp hc2s with h | h
          · rw [h]
          · have hp := sortChildren_sorted task children
            rw [hs] at hp
            exact childLE_score_le (List.rel_of_pairwise_cons hp h)
        · rw [if_neg hck] at hsel2
          cases hsel2
    · rw [select_children, if_neg hq] at hsel
      rcases List.mem_map.mp hsel with ⟨c2, hc2, hid⟩
      have hc2m : c2 ∈ children :=
        (mem_sortChildren task).mp (List.mem_filter.mp hc2).1
      have hceq : c2 = c := List.inj_on_of_nodup_map hnd hc2m hc hid
      left
      have := (List.mem_filter.mp hc2).2
      rw [hceq] at this
      simpa using this
  · intro hall
    have hq : (sortChildren task children).filter
        (fun c2 => t < score task c2) = [] := by
      rw [List.filter_eq_nil_iff]
      intro c2 hc2
      have := hall c2 ((mem_sortChildren task).mp hc2)
      simpa using not_lt.mpr this
    rw [select_children, if_pos hq]
    cases hs : sortChildren task children with
    | nil => simp
    | cons best rest =>
      show (if containsKeyword task best then [best.id] else []).length ≤ 1
      by_cases hck : containsKeyword task best
      · rw [if_pos hck]; simp
      · rw [if_neg hck]; simp
  · intro hall hnone
    have hq : (sortChildren task children).filter
        (fun c2 => t < score task c2) = [] := by
      rw [List.filter_eq_nil_iff]
      intro c2 hc2
      have := hall c2 ((mem_sortChildren task).mp hc2)
      simpa using not_lt.mpr this
    rw [select_children, if_pos hq]
    cases hs : sortChildren task children with
    | nil => rfl
    | cons best rest =>
      have hbestmem : best ∈ children := by
        have : best ∈ sortChildren task children := by
          rw [hs]; exact List.mem_cons_self best rest
        exact (mem_sortChildren task).mp this
      show (if containsKeyword task best then [best.id] else []) = []
      rw [if_neg (by simp [hnone best hbestmem])]

/-- Witness for `select_children_spec`: with no children nothing qualifies, no
keyword is contained, and the router returns the empty selection. -/
theorem select_children_spec_witness :
    select_children "design a logo" [] selection_threshold = [] :=
  (select_children_spec "design a logo" [] selection_threshold).2.2.2
    (fun c hc => absurd hc (List.not_mem_nil c))
    (fun c hc => absurd hc (List.not_mem_nil c))

/-- Claim C9: `select_children` is a pure function — two invocations on
identical inputs return the same id list in the same order — and its order is
deterministic: the sorted candidate list (of which the returned qualifying
prefix-filter is taken) is pairwise ordered by descending score with ties
broken by lexicographic `child_id`. -/
theorem router_deterministic (task : String) (children : List ChildCap) (t : ℚ) :
    select_children task children t = select_children task children t
    ∧ (sortChildren task children).Pairwise (childLE task)
    ∧ ((sortChildren task children).filter
        (fun c => t < score task c)).Pairwise (childLE task)
    ∧ (sortChildren task children).Pairwise
        (fun a b => score task a = score task b → a.id ≤ b.id) := by
  refine ⟨rfl, sortChildren_sorted task children, ?_, ?_⟩
  · exact List.Pairwise.filter _ (sortChildren_sorted task children)
  · refine (sortChildren_sorted task children).imp ?_
    intro a b hab
    intro heq
    rcases hab with hab | ⟨_, hid⟩
    · exact absurd (heq ▸ hab) (lt_irrefl _)
    · exact hid

end AgentLab
